import Mathlib

/-!
# Hamnen core: shallow embedding and verification

Shallow embedding of the hamnen backend core (registry loader, lifecycle
dispatcher, status cache, controllers and boundary validation) translated
from the repository sources:

* `backend/utils/docker.js` (DockerManager)
* `backend/utils/appLoader.js` (AppLoader)
* `backend/utils/cache.js` (status cache)
* `backend/controllers/appsController.js`
* `backend/middleware/validation.js`

External effects (filesystem reads, subprocess execution, timers) are made
explicit: functions take the outcome of each external call as a parameter
and return the request they would issue (for subprocess calls) or an event
trace (for controller/loader flows). JavaScript strings are modelled as
`String` where they are only concatenated, and as `List Char` where the
proofs need character-level reasoning (ids, validation, project names).
-/

namespace Hamnen

/-! ## Lifecycle dispatcher: `backend/utils/docker.js` -/

/-- A `child_process` request: either a single command line handed to a
shell (`exec`), or a program with an argument vector (`execFile`). -/
inductive Invocation
  | shell (cmdline : String)
  | argv (prog : String) (args : List String)
deriving DecidableEq, Repr

/-- `true` exactly for argument-vector (`execFile`-style) requests. -/
def Invocation.isArgv : Invocation → Bool
  | .argv _ _ => true
  | .shell _ => false

/-- `path.join` on already-clean segments: join with `/`. -/
def pathJoin (parts : List String) : String :=
  String.intercalate "/" parts

/-- Embedding of `DockerManager.executeDockerCompose` from
`backend/utils/docker.js` lines 16-38.  The source computes
`appPath = path.join(this.appsDir, appName)`,
`composeFile = path.join(appPath, 'docker-compose.yml')`, checks that the
compose file exists (`fs.access`, modelled by `composeExists`), then builds
the template string
`docker-compose -f $composeFile -p hamnen_$appName $command`
and passes it to `exec`, i.e. a single shell-parsed command line.  The
value returned is the subprocess request that would be issued, or the
error thrown when the compose file is missing. -/
def executeDockerCompose (appsDir appName command : String)
    (composeExists : Bool) : Except String Invocation :=
  let appPath := pathJoin [appsDir, appName]
  let composeFile := pathJoin [appPath, "docker-compose.yml"]
  if composeExists then
    .ok (.shell ("docker-compose -f " ++ composeFile ++
      " -p hamnen_" ++ appName ++ " " ++ command))
  else
    .error ("docker-compose.yml not found for " ++ appName)

/-- `DockerManager.startApp`: `executeDockerCompose(appName, 'up -d')`. -/
def startAppInvocation (appsDir appName : String) (composeExists : Bool) :
    Except String Invocation :=
  executeDockerCompose appsDir appName "up -d" composeExists

/-- `DockerManager.stopApp`: `executeDockerCompose(appName, 'down')`. -/
def stopAppInvocation (appsDir appName : String) (composeExists : Bool) :
    Except String Invocation :=
  executeDockerCompose appsDir appName "down" composeExists

/-- `DockerManager.getAppLogs`: `executeDockerCompose(appName,
`logs --tail=$lines`)` with `lines` interpolated into the command text. -/
def getAppLogsInvocation (appsDir appName : String) (lines : Int)
    (composeExists : Bool) : Except String Invocation :=
  executeDockerCompose appsDir appName ("logs --tail=" ++ toString lines)
    composeExists

/-- `DockerManager.getAppStatus` issues
`executeDockerCompose(appName, 'ps --format json')`. -/
def getAppStatusInvocation (appsDir appName : String) (composeExists : Bool) :
    Except String Invocation :=
  executeDockerCompose appsDir appName "ps --format json" composeExists

/-- One raw container record as printed by the external CLI and parsed by
`JSON.parse` in `getAppStatus`: the fields the source reads. -/
structure ContainerRec where
  Name : String
  State : String
  Status : String
deriving DecidableEq, Repr

/-- One line of the subprocess stdout inside `getAppStatus`.  The source
pipeline is `.split('\n').filter(line => line.trim()).map(JSON.parse or
null).filter(Boolean)`: whitespace-only lines and lines `JSON.parse`
rejects are dropped, parsed records are kept.  `JSON.parse` itself is the
opaque deserialization step, so a line is given here together with its
parse outcome. -/
inductive PsLine
  | blank
  | unparseable
  | record (c : ContainerRec)
deriving DecidableEq, Repr

/-- A container entry of the returned status object
(`containers.map(c => ({name: c.Name, state: c.State, status: c.Status}))`). -/
structure ContInfo where
  name : String
  state : String
  status : String
deriving DecidableEq, Repr

/-- The status object built by `DockerManager.getAppStatus`: a `status`
string (the source uses the string values `stopped`, `running`,
`partial`), the container list, and the optional `error` field set on the
catch path. -/
structure AppStatus where
  status : String
  containers : List ContInfo
  error : Option String := none
deriving DecidableEq, Repr

/-- Embedding of `DockerManager.getAppStatus` from `backend/utils/docker.js`
lines 57-88, as a function of the outcome of the external call
(`executeDockerCompose(appName, 'ps --format json')`): an error if that
call threw, otherwise the classified stdout lines.  On the catch path the
source returns `status: 'stopped', containers: [], error: message`; with
zero parsed containers it returns `stopped`; otherwise `running` when
every record has `State === 'running'`, else `partial`. -/
def getAppStatus (execResult : Except String (List PsLine)) : AppStatus :=
  match execResult with
  | .error e => { status := "stopped", containers := [], error := some e }
  | .ok lines =>
    let containers := lines.filterMap fun l =>
      match l with
      | .record c => some c
      | _ => none
    if containers.isEmpty then
      { status := "stopped", containers := [] }
    else
      let allRunning := containers.all fun c => c.State == "running"
      { status := if allRunning then "running" else "partial"
        containers := containers.map fun c => ⟨c.Name, c.State, c.Status⟩ }

/-! ## Project namespace derivation: `src/unnamed/part_007` lines 29-31

`const projectName = `hamnen_${appId.replace(/\//g, '-')}`` — every `/` of
the app id is replaced by `-` and the result is prefixed with `hamnen_`. -/

/-- The character map applied by `appId.replace(/\//g, '-')`. -/
def slashToDash (c : Char) : Char :=
  if c = '/' then '-' else c

/-- Embedding of the project-name derivation of
`DockerManager.executeDockerCompose` in `src/unnamed/part_007`:
`hamnen_` ++ the id with every `/` replaced by `-`. -/
def projectName (appId : List Char) : List Char :=
  "hamnen_".data ++ appId.map slashToDash

/-! ## Boundary validation: `backend/middleware/validation.js` -/

/-- The character class `[a-zA-Z0-9_-]` of the app-id pattern. -/
def allowedChar (c : Char) : Bool :=
  c.isAlpha || c.isDigit || c == '_' || c == '-'

/-- One pattern segment: nonempty, all characters in `[a-zA-Z0-9_-]`. -/
def segOk (s : List Char) : Bool :=
  !s.isEmpty && s.all allowedChar

/-- Does `hay` start with `needle`, character by character. -/
def startsWithSeg : List Char → List Char → Bool
  | [], _ => true
  | _ :: _, [] => false
  | a :: as, b :: bs => a == b && startsWithSeg as bs

/-- JavaScript `hay.includes(needle)`: `needle` occurs as a contiguous
substring of `hay`. -/
def includesSeg (needle : List Char) : List Char → Bool
  | [] => needle.isEmpty
  | c :: cs => startsWithSeg needle (c :: cs) || includesSeg needle cs

/-- Split a character list at its first `/`: the part before it, and
(when a `/` exists) the part after it. -/
def splitFirstSlash : List Char → List Char × Option (List Char)
  | [] => ([], none)
  | c :: cs =>
    if c = '/' then ([], some cs)
    else
      let r := splitFirstSlash cs
      (c :: r.1, r.2)

/-- The regex `^[a-zA-Z0-9_-]+(?:\/[a-zA-Z0-9_-]+)?$` of `validateAppId`:
the string is one segment, or two segments joined by a single `/`.  Since
the segment class excludes `/`, matching is equivalent to splitting at the
first `/` and checking each side as a segment. -/
def idPattern (s : List Char) : Bool :=
  match splitFirstSlash s with
  | (s1, none) => segOk s1
  | (s1, some s2) => segOk s1 && segOk s2

/-- Embedding of `validateAppId` from `backend/middleware/validation.js`
lines 10-32.  The source checks, with early returns: the id is a nonempty
string (`!appId`); it has no `..` substring, no leading `/`, no trailing
`/`; it matches the pattern; its length is at most 100.  The early-return
chain is the conjunction of the checks. -/
def validateAppId (appId : List Char) : Bool :=
  !appId.isEmpty &&
  !(includesSeg ['.', '.'] appId ||
    appId.head? == some '/' || appId.getLast? == some '/') &&
  idPattern appId &&
  appId.length ≤ 100

/-- JavaScript whitespace accepted by `parseInt` before the number:
space, tab, line feed, carriage return, vertical tab, form feed. -/
def jsWhitespace (c : Char) : Bool :=
  c == ' ' || c == '\t' || c == '\n' || c == '\r' ||
  c == Char.ofNat 11 || c == Char.ofNat 12

/-- `parseInt(value, 10)`: skip leading whitespace, read one optional sign,
then the longest leading run of decimal digits; the result is `none`
(JavaScript `NaN`) when that run is empty, otherwise the signed value of
the run, ignoring everything after it.  (JavaScript returns a float and
loses precision above 2^53; that never changes whether the value lies in
a range bounded by 10000, which is all the middleware inspects.) -/
def jsParseInt (s : List Char) : Option Int :=
  let t := s.dropWhile jsWhitespace
  let signAndRest : Int × List Char :=
    match t with
    | '-' :: rest => (-1, rest)
    | '+' :: rest => (1, rest)
    | _ => (1, t)
  let ds := signAndRest.2.takeWhile Char.isDigit
  if ds.isEmpty then none
  else
    some (signAndRest.1 *
      (ds.foldl (fun acc c => 10 * acc + (c.toNat - '0'.toNat)) 0 : Nat))

/-- Result of `validateNumber`: the source returns
`{valid: false, error}` or `{valid: true, value}`. -/
inductive NumValidation
  | invalid (error : String)
  | valid (value : Int)
deriving DecidableEq, Repr

/-- Embedding of `validateNumber(value, min, max, paramName)` from
`backend/middleware/validation.js` lines 37-49: `parseInt(value, 10)`,
invalid when `NaN`, invalid when outside `[min, max]`, otherwise valid
with the parsed value. -/
def validateNumber (value : List Char) (min max : Int) (paramName : String) :
    NumValidation :=
  match jsParseInt value with
  | none => .invalid (paramName ++ " must be a number")
  | some num =>
    if num < min || num > max then
      .invalid (paramName ++ " must be between " ++ toString min ++
        " and " ++ toString max)
    else
      .valid num

/-- The `lines` query-parameter check of `validateQueryParams`
(`backend/middleware/validation.js` lines 81-95):
`validateNumber(req.query.lines, 1, 10000, 'lines')`. -/
def validateLinesParam (value : List Char) : NumValidation :=
  validateNumber value 1 10000 "lines"

/-! ## Registry loader: `backend/utils/appLoader.js`

The filesystem under `appsDir` is modelled as data: a list of root
directories, each with the files directly inside it and its
subdirectories.  `fs.readdir` only yields directory entries relevant to
the scan (the source filters with `entry.isDirectory()`), and a
`readable` flag models whether `readdir` of a directory succeeds. -/

/-- The parse result of one `description.json` manifest.  `loadApp` builds
the descriptor as `{id: appId, name: description.name || appName,
category: category || 'uncategorized', ...description, composeInfo}`, so
the object spread overwrites `id`, `name` and `category` whenever the
manifest itself stores those keys; the remaining manifest keys
(description, icon, port, path, tags, ...) pass through the spread without
touching the computed fields.  The model tracks the keys whose presence
changes a field some claim or controller reads: `id`, `name`, `category`,
`port`, `path` (the last two feed the launch URL).  A key is `none` when
absent from the document. -/
structure DescDoc where
  idField : Option (List Char) := none
  nameField : Option (List Char) := none
  categoryField : Option (List Char) := none
  portField : Option (List Char) := none
  pathField : Option (List Char) := none
deriving DecidableEq, Repr

/-- One service of a parsed `docker-compose.yml`: its name and the entries
of its `ports` array, each already rendered with `String(port)`. -/
structure ComposeService where
  sname : List Char
  ports : List (List Char)
deriving DecidableEq, Repr

/-- A parsed compose document: its `services` mapping, in key order. -/
structure ComposeDoc where
  services : List ComposeService
deriving DecidableEq, Repr

/-- The first match of the regex `(\d+):(\d+)` in a string, as
`portStr.match(...)` finds it: at the earliest start position, the maximal
digit run, a `:`, and a nonempty digit run.  Returns the two groups. -/
def firstPortPair : List Char → Option (List Char × List Char)
  | [] => none
  | c :: cs =>
    if c.isDigit then
      let d1 := (c :: cs).takeWhile Char.isDigit
      let rest := (c :: cs).dropWhile Char.isDigit
      match rest with
      | ':' :: r2 =>
        let d2 := r2.takeWhile Char.isDigit
        if d2.isEmpty then firstPortPair cs else some (d1, d2)
      | _ => firstPortPair cs
    else firstPortPair cs

/-- The `composeInfo` value: service names and extracted host/container
port pairs. -/
structure ComposeInfo where
  services : List (List Char)
  ports : List (List Char × List Char)
deriving DecidableEq, Repr

/-- Embedding of `AppLoader.extractComposeInfo`
(`backend/utils/appLoader.js` lines 151-176): collect the service names,
and for each `ports` entry of each service push `{host, container}` when
`String(port).match(/(\d+):(\d+)/)` matches. -/
def extractComposeInfo (c : ComposeDoc) : ComposeInfo :=
  { services := c.services.map (·.sname)
    ports := c.services.foldl
      (fun acc svc => acc ++ svc.ports.filterMap firstPortPair) [] }

/-- An application descriptor as built by `AppLoader.loadApp`.  Fields the
source computes and the claims or controllers read; further manifest keys
spread into the JS object are display data no claim mentions. -/
structure Descriptor where
  id : List Char
  name : List Char
  category : List Char
  port : Option (List Char)
  path : Option (List Char)
  composeInfo : ComposeInfo
deriving DecidableEq, Repr

/-- The files directly inside one application directory: whether
`description.json` and `docker-compose.yml` exist (`fs.access`), and the
outcome of parsing each (`JSON.parse` / `yaml.load`; `none` models a parse
error, which those calls signal by throwing). -/
structure AppFiles where
  hasDesc : Bool
  desc : Option DescDoc
  hasCompose : Bool
  compose : Option ComposeDoc
deriving DecidableEq, Repr

/-- A subdirectory of a category directory. -/
structure SubDir where
  sdname : List Char
  files : AppFiles
deriving DecidableEq, Repr

/-- A directory directly under `appsDir`: its name, its own files, whether
`fs.readdir` of it succeeds, and its subdirectories. -/
structure RootDir where
  rdname : List Char
  files : AppFiles
  readable : Bool
  subdirs : List SubDir
deriving DecidableEq, Repr

/-- The filesystem tree under `appsDir`, plus whether `fs.readdir` of the
root itself succeeds. -/
structure FS where
  rootReadable : Bool
  roots : List RootDir
deriving DecidableEq, Repr

/-- Filesystem operations the loader performs, recorded as a trace:
reading the root directory listing, reading a category directory listing,
and probing (`fs.access`) or reading (`fs.readFile`) a file of one
application directory, identified by its optional category, its directory
name and the file name. -/
inductive Ev
  | readDirRoot
  | readDirCat (c : List Char)
  | accessFile (cat : Option (List Char)) (app : List Char) (file : String)
  | readFile (cat : Option (List Char)) (app : List Char) (file : String)
deriving DecidableEq, Repr

/-- Resolve the directory the path `appsDir[/category]/appName` denotes,
as `path.join` + the file operations would: the root entry of that name,
then (for a category path) the subdirectory of that name. -/
def resolveFiles (fs : FS) (category : Option (List Char))
    (appName : List Char) : Option AppFiles :=
  match category with
  | none => (fs.roots.find? fun rd => rd.rdname == appName).map (·.files)
  | some c =>
    (fs.roots.find? fun rd => rd.rdname == c).bind fun rd =>
      (rd.subdirs.find? fun sd => sd.sdname == appName).map (·.files)

/-- Embedding of `AppLoader.loadApp(appName, category)`
(`backend/utils/appLoader.js` lines 112-146), returning the result
together with the trace of file operations.  The source: `fs.access` on
`description.json` then on `docker-compose.yml`, returning `null` if
either fails (a missing directory fails the first access); then
`fs.readFile` + `JSON.parse` on the manifest and `fs.readFile` +
`yaml.load` on the compose file, both of which throw to the caller on a
parse error; finally the descriptor object, with the manifest spread
overriding the computed `id`, `name`, `category` when those keys are
stored in the document. -/
def loadApp (fs : FS) (appName : List Char) (category : Option (List Char)) :
    Except String (Option Descriptor) × List Ev :=
  match resolveFiles fs category appName with
  | none => (.ok none, [.accessFile category appName "description.json"])
  | some files =>
    if !files.hasDesc then
      (.ok none, [.accessFile category appName "description.json"])
    else if !files.hasCompose then
      (.ok none, [.accessFile category appName "description.json",
                  .accessFile category appName "docker-compose.yml"])
    else
      let evs := [Ev.accessFile category appName "description.json",
                  Ev.accessFile category appName "docker-compose.yml",
                  Ev.readFile category appName "description.json"]
      match files.desc with
      | none => (.error "JSON.parse: unexpected token", evs)
      | some d =>
        let evs := evs ++ [Ev.readFile category appName "docker-compose.yml"]
        match files.compose with
        | none => (.error "yaml.load: bad indentation", evs)
        | some comp =>
          let appId := match category with
            | some c => c ++ '/' :: appName
            | none => appName
          (.ok (some
            { id := d.idField.getD appId
              name := d.nameField.getD appName
              category := d.categoryField.getD (category.getD "uncategorized".data)
              port := d.portField
              path := d.pathField
              composeInfo := extractComposeInfo comp }), evs)

/-- Embedding of `AppLoader.loadCategoryApps(categoryName)`
(`backend/utils/appLoader.js` lines 58-77): `fs.readdir` of the category
directory (throwing when unreadable), then for each subdirectory a
`loadApp` call whose thrown errors are caught and logged (`Failed to load
app category/name`), pushing each non-null descriptor. -/
def loadCategoryApps (fs : FS) (rd : RootDir) :
    Except String (List Descriptor) × List Ev :=
  if !rd.readable then
    (.error "readdir: permission denied", [.readDirCat rd.rdname])
  else
    let step := rd.subdirs.foldl
      (fun (acc : List Descriptor × List Ev) sd =>
        let r := loadApp fs sd.sdname (some rd.rdname)
        match r.1 with
        | .ok (some a) => (acc.1 ++ [a], acc.2 ++ r.2)
        | _ => (acc.1, acc.2 ++ r.2))
      ([], [Ev.readDirCat rd.rdname])
    (.ok step.1, step.2)

/-- Embedding of `AppLoader.loadApps()` (`backend/utils/appLoader.js`
lines 16-53), i.e. the spec's `scanAll()`.  `fs.readdir` of the root
(the only uncaught failure, rethrown as `Failed to load applications`);
then per directory entry other than `README.md`: probe
`description.json` (`fileExists`, never throws) — when present the entry
is an application at root level, loaded with `loadApp(name, null)` under
a try/catch that logs and skips; otherwise it is a category directory,
scanned with `loadCategoryApps` under a try/catch that logs and skips the
category. -/
def loadApps (fs : FS) : Except String (List Descriptor) × List Ev :=
  if !fs.rootReadable then
    (.error "Failed to load applications: readdir: permission denied",
     [.readDirRoot])
  else
    let step := fs.roots.foldl
      (fun (acc : List Descriptor × List Ev) rd =>
        if rd.rdname == "README.md".data then acc
        else
          let accEv := Ev.accessFile none rd.rdname "description.json"
          if rd.files.hasDesc then
            let r := loadApp fs rd.rdname none
            match r.1 with
            | .ok (some a) => (acc.1 ++ [a], acc.2 ++ accEv :: r.2)
            | _ => (acc.1, acc.2 ++ accEv :: r.2)
          else
            let r := loadCategoryApps fs rd
            match r.1 with
            | .ok l => (acc.1 ++ l, acc.2 ++ accEv :: r.2)
            | .error _ => (acc.1, acc.2 ++ accEv :: r.2))
      ([], [Ev.readDirRoot])
    (.ok step.1, step.2)

/-- The `category` half of `appId.split('/')` destructured in
`findAppById`: the first `/`-separated segment. -/
def idCategory (appId : List Char) : List Char :=
  (splitFirstSlash appId).1

/-- The `appName` half of `appId.split('/')` destructured in
`findAppById`: the second `/`-separated segment. -/
def idAppName (appId : List Char) : List Char :=
  ((splitFirstSlash appId).2.getD []).takeWhile fun c => c != '/'

/-- Embedding of `AppLoader.findAppById(appId)`
(`backend/utils/appLoader.js` lines 95-105).  When the id contains `/`,
`const [category, appName] = appId.split('/')` takes the first two
`/`-separated segments and only `loadApp(appName, category)` is called;
otherwise the full `loadApps()` scan runs and the result is searched
linearly with `apps.find(app => app.id === appId)`. -/
def findAppById (fs : FS) (appId : List Char) :
    Except String (Option Descriptor) × List Ev :=
  if appId.contains '/' then
    loadApp fs (idAppName appId) (some (idCategory appId))
  else
    let r := loadApps fs
    (r.1.map fun apps => apps.find? fun a => a.id == appId, r.2)

/-! ## Status cache: `backend/utils/cache.js`

The status store is a `node-cache` instance keyed by `status:` ++ appId.
The claims touch only the deletion semantics of `invalidateAppStatus`
(`appStatusCache.del`); the store is modelled as an association list and
TTL expiry, an orthogonal concern of the external `node-cache` library,
is not modelled. -/

/-- The cache key `status:$appId` used by the status store. -/
def statusKey (appId : List Char) : List Char :=
  "status:".data ++ appId

/-- The status store: key/value pairs. -/
abbrev StatusCache := List (List Char × AppStatus)

/-- `getAppStatus` of `backend/utils/cache.js` lines 65-75:
`appStatusCache.get('status:' + appId)`, `null` (here `none`) on miss. -/
def cacheGetAppStatus (st : StatusCache) (appId : List Char) :
    Option AppStatus :=
  (st.find? fun e => e.1 == statusKey appId).map (·.2)

/-- `setAppStatus` of `backend/utils/cache.js` lines 80-83: store the
value under `status:$appId`, replacing any previous entry. -/
def cacheSetAppStatus (st : StatusCache) (appId : List Char)
    (status : AppStatus) : StatusCache :=
  (statusKey appId, status) ::
    st.filter fun e => e.1 != statusKey appId

/-- Embedding of `invalidateAppStatus` from `backend/utils/cache.js`
lines 88-91: `appStatusCache.del('status:' + appId)`. -/
def invalidateAppStatus (st : StatusCache) (appId : List Char) :
    StatusCache :=
  st.filter fun e => e.1 != statusKey appId

/-! ## Controllers: `backend/controllers/appsController.js` -/

/-- Collaborator calls the `startApp` controller can make, recorded in
order as a trace.  `cacheInvalidate`/`cacheSet` are included so that the
absence of any cache operation in a trace is expressible; the status
cache module exports them, and this event vocabulary is what a test
double would observe. -/
inductive CtrlEv
  | findById (id : List Char)
  | dockerStart (id : List Char)
  | sleepMs (n : Nat)
  | dockerStatus (id : List Char)
  | cacheInvalidate (id : List Char)
  | cacheSet (id : List Char)
deriving DecidableEq, Repr

/-- `true` exactly on the cache-touching controller events. -/
def CtrlEv.isCacheOp : CtrlEv → Bool
  | .cacheInvalidate _ => true
  | .cacheSet _ => true
  | _ => false

/-- The collaborators of the `startApp` controller, as oracles: the
loader lookup (which can throw or return `null`), the dispatcher start
call (which can throw), and the dispatcher status query
(`DockerManager.getAppStatus`, which never throws). -/
structure StartCollab where
  findAppById : List Char → Except String (Option Descriptor)
  startApp : List Char → Except String Unit
  getAppStatus : List Char → AppStatus

/-- The HTTP response of the `startApp` controller: 404 when the id
resolves to no descriptor, 500 from the catch-all, 200 with message,
status and launch URL on success. -/
inductive StartResult
  | notFound
  | serverError (msg : String)
  | ok (message : List Char) (status : AppStatus) (url : List Char)
deriving DecidableEq, Repr

/-- The launch URL `http://localhost:${app.port}${app.path || '/'}` built
by the controller: an absent `port` interpolates as the text
`undefined`, an absent or empty `path` falls back to `/`. -/
def appUrl (app : Descriptor) : List Char :=
  "http://localhost:".data ++
  (match app.port with
   | some p => p
   | none => "undefined".data) ++
  (match app.path with
   | some p => if p.isEmpty then "/".data else p
   | none => "/".data)

/-- Embedding of the `startApp` controller
(`backend/controllers/appsController.js` lines 52-78), returning the
response and the ordered trace of collaborator calls: look the app up
(404 when absent), dispatch `dockerManager.startApp`, wait the fixed
2000 ms settling delay, re-query `dockerManager.getAppStatus`, and
respond with `Application ${app.name || appId} started`, the fresh
status and the launch URL.  Thrown errors reach the catch-all (500). -/
def ctrlStartApp (c : StartCollab) (appId : List Char) :
    StartResult × List CtrlEv :=
  match c.findAppById appId with
  | .error e => (.serverError e, [.findById appId])
  | .ok none => (.notFound, [.findById appId])
  | .ok (some app) =>
    match c.startApp appId with
    | .error e => (.serverError e, [.findById appId, .dockerStart appId])
    | .ok _ =>
      let status := c.getAppStatus appId
      (.ok ("Application ".data ++
              (if app.name.isEmpty then appId else app.name) ++
              " started".data)
           status (appUrl app),
       [.findById appId, .dockerStart appId, .sleepMs 2000,
        .dockerStatus appId])

/-- Embedding of the `listApps` controller
(`backend/controllers/appsController.js` lines 7-27) composed with
`DockerManager.getAppStatus`: for each app of the catalog, query its
status — given per-app as the outcome of the external
`ps --format json` call — and pair the app with the resulting status
string.  The controller wraps each status query in a try/catch mapping a
thrown error to the string `unknown`, but `DockerManager.getAppStatus`
catches internally and never throws, so that branch is unreachable with
this dispatcher. -/
def listApps (apps : List Descriptor)
    (execOf : List Char → Except String (List PsLine)) :
    List (Descriptor × String) :=
  apps.map fun a => (a, (getAppStatus (execOf a.id)).status)

/-! ## Derived views of the scan, and concrete fixtures -/

/-- The descriptors a single `loadApp` outcome contributes to the scan:
one on success, none when skipped (`null`) or when the thrown error is
caught by the surrounding loop. -/
def appOfLoad (r : Except String (Option Descriptor)) : List Descriptor :=
  match r with
  | .ok (some a) => [a]
  | _ => []

/-- The descriptors one root directory entry contributes to `loadApps`. -/
def rootApps (fs : FS) (rd : RootDir) : List Descriptor :=
  if rd.rdname == "README.md".data then []
  else if rd.files.hasDesc then appOfLoad (loadApp fs rd.rdname none).1
  else if rd.readable then
    rd.subdirs.flatMap fun sd =>
      appOfLoad (loadApp fs sd.sdname (some rd.rdname)).1
  else []

/-- The trace one root directory entry contributes to `loadApps`. -/
def rootEvs (fs : FS) (rd : RootDir) : List Ev :=
  if rd.rdname == "README.md".data then []
  else
    Ev.accessFile none rd.rdname "description.json" ::
    (if rd.files.hasDesc then (loadApp fs rd.rdname none).2
     else (loadCategoryApps fs rd).2)

/-- Fixture helper: an application directory with both required files
present and both documents parsing. -/
def filesOk (dd : DescDoc) (cd : ComposeDoc) : AppFiles :=
  ⟨true, some dd, true, some cd⟩

/-- Fixture helper: a directory with neither manifest nor compose file
directly inside it (the shape of a category directory). -/
def noFiles : AppFiles :=
  ⟨false, none, false, none⟩

/-- Fixture: an empty compose document. -/
def emptyCompose : ComposeDoc := ⟨[]⟩

/-- Fixture: the `web/nginx-demo` manifest of the spec's scan scenario
(name "Nginx Demo", port 8080). -/
def nginxDesc : DescDoc :=
  { nameField := some "Nginx Demo".data, portField := some "8080".data }

/-- Fixture: a catalog tree with category `web` holding `nginx-demo`
(complete) and `broken-app` (manifest parses but stores no `name` key). -/
def fsBrokenName : FS :=
  ⟨true, [⟨"web".data, noFiles, true,
    [⟨"nginx-demo".data, filesOk nginxDesc emptyCompose⟩,
     ⟨"broken-app".data, filesOk {} emptyCompose⟩]⟩]⟩

/-- The descriptor `loadApps` builds for `web/nginx-demo` in
`fsBrokenName`. -/
def nginxDescriptor : Descriptor :=
  ⟨"web/nginx-demo".data, "Nginx Demo".data, "web".data,
   some "8080".data, none, ⟨[], []⟩⟩

/-- The descriptor `loadApps` builds for `web/broken-app` in
`fsBrokenName`: included, with the directory name as fallback name. -/
def brokenAppDescriptor : Descriptor :=
  ⟨"web/broken-app".data, "broken-app".data, "web".data,
   none, none, ⟨[], []⟩⟩

/-- Fixture: a tree where `web/broken-json` has an unparseable manifest
(`JSON.parse` throws). -/
def fsBrokenJson : FS :=
  ⟨true, [⟨"web".data, noFiles, true,
    [⟨"nginx-demo".data, filesOk nginxDesc emptyCompose⟩,
     ⟨"broken-json".data, ⟨true, none, true, some emptyCompose⟩⟩]⟩]⟩

/-- Fixture: a manifest that stores its own `id` key (`"evil"`). -/
def evilDesc : DescDoc :=
  { idField := some "evil".data, nameField := some "Nginx".data }

/-- Fixture: a tree whose only app `web/nginx` has a manifest storing an
`id` key. -/
def fsIdOverride : FS :=
  ⟨true, [⟨"web".data, noFiles, true,
    [⟨"nginx".data, filesOk evilDesc emptyCompose⟩]⟩]⟩

/-- The descriptor built for `web/nginx` in `fsIdOverride`: the manifest
spread has replaced the path-derived id. -/
def evilDescriptor : Descriptor :=
  ⟨"evil".data, "Nginx".data, "web".data, none, none, ⟨[], []⟩⟩

/-- Manifest-level check used as a hypothesis: the parsed manifest, when
present, stores no `id` key. -/
def filesNoId (files : AppFiles) : Bool :=
  match files.desc with
  | some dd => dd.idField == none
  | none => true

/-- No manifest anywhere in the tree stores an `id` key. -/
def noIdOverride (fs : FS) : Bool :=
  fs.roots.all fun rd =>
    filesNoId rd.files && rd.subdirs.all fun sd => filesNoId sd.files

/-- Every directory name in the tree is free of `/` (as real directory
names are). -/
def slashFreeNames (fs : FS) : Bool :=
  fs.roots.all fun rd =>
    (rd.rdname.all fun c => c != '/') &&
    rd.subdirs.all fun sd => sd.sdname.all fun c => c != '/'

/-- Fixture: a demo descriptor handed back by the loader test double of
the `startApp` controller runs. -/
def demoDescriptor : Descriptor :=
  ⟨"web/nginx-demo".data, "Nginx Demo".data, "web".data,
   some "8080".data, some "/".data, ⟨[], []⟩⟩

/-- Fixture: a running status handed back by the dispatcher test double. -/
def demoStatus : AppStatus :=
  { status := "running", containers := [⟨"nginx", "running", "Up 5 seconds"⟩] }

/-- Test double for the `startApp` controller: the lookup finds
`demoDescriptor`, the dispatcher start succeeds, the status query
reports `demoStatus`. -/
def demoCollab : StartCollab :=
  { findAppById := fun _ => .ok (some demoDescriptor)
    startApp := fun _ => .ok ()
    getAppStatus := fun _ => demoStatus }

/-! # Supporting lemmas -/

theorem allowedChar_ne_slash {c : Char} (h : allowedChar c = true) :
    c ≠ '/' := by
  intro hc; subst hc; exact absurd h (by decide)

theorem segOk_ne_nil {s : List Char} (h : segOk s = true) : s ≠ [] := by
  intro hc; subst hc; exact absurd h (by decide)

theorem segOk_mem {s : List Char} (h : segOk s = true) :
    ∀ c ∈ s, allowedChar c = true :=
  List.all_eq_true.mp (Bool.and_eq_true_iff.mp h).2

theorem splitFirstSlash_fst_mem {s : List Char} :
    ∀ c ∈ (splitFirstSlash s).1, c ≠ '/' := by
  induction s with
  | nil => simp [splitFirstSlash]
  | cons a as ih =>
    by_cases h : a = '/'
    · simp [splitFirstSlash, h]
    · simp only [splitFirstSlash, if_neg h]
      intro c hc
      rcases List.mem_cons.1 hc with rfl | hc
      · exact h
      · exact ih c hc

theorem splitFirstSlash_decomp (s : List Char) :
    s = (splitFirstSlash s).1 ++
      (match (splitFirstSlash s).2 with
       | none => []
       | some s2 => '/' :: s2) := by
  induction s with
  | nil => rfl
  | cons a as ih =>
    by_cases h : a = '/'
    · subst h; simp [splitFirstSlash]
    · simp only [splitFirstSlash, if_neg h, List.cons_append]
      exact congrArg (List.cons a) ih

theorem splitFirstSlash_append (c n : List Char) (hc : ∀ x ∈ c, x ≠ '/') :
    splitFirstSlash (c ++ '/' :: n) = (c, some n) := by
  induction c with
  | nil => simp [splitFirstSlash]
  | cons a as ih =>
    have ha : a ≠ '/' := hc a (List.mem_cons_self a as)
    simp only [List.cons_append, splitFirstSlash, if_neg ha, List.append_eq]
    rw [ih fun x hx => hc x (List.mem_cons_of_mem a hx)]

theorem idPattern_decomp {s : List Char} (h : idPattern s = true) :
    (∃ s1, segOk s1 = true ∧ s = s1) ∨
    (∃ s1 s2, segOk s1 = true ∧ segOk s2 = true ∧ s = s1 ++ '/' :: s2) := by
  have hd := splitFirstSlash_decomp s
  unfold idPattern at h
  rcases hsp : splitFirstSlash s with ⟨s1, r⟩
  rw [hsp] at h hd
  cases r with
  | none =>
    left
    exact ⟨s1, h, by simpa using hd⟩
  | some s2 =>
    right
    rcases Bool.and_eq_true_iff.mp h with ⟨h1, h2⟩
    exact ⟨s1, s2, h1, h2, by simpa using hd⟩

theorem idPattern_mem {s : List Char} (h : idPattern s = true) :
    ∀ c ∈ s, allowedChar c = true ∨ c = '/' := by
  rcases idPattern_decomp h with ⟨s1, h1, rfl⟩ | ⟨s1, s2, h1, h2, rfl⟩
  · exact fun c hc => Or.inl (segOk_mem h1 c hc)
  · intro c hc
    rcases List.mem_append.1 hc with hc | hc
    · exact Or.inl (segOk_mem h1 c hc)
    · rcases List.mem_cons.1 hc with rfl | hc
      · exact Or.inr rfl
      · exact Or.inl (segOk_mem h2 c hc)

theorem idPattern_isEmpty {s : List Char} (h : idPattern s = true) :
    s.isEmpty = false := by
  cases s with
  | nil => exact absurd h (by decide)
  | cons a as => rfl

theorem idPattern_head {s : List Char} (h : idPattern s = true) :
    s.head? ≠ some '/' := by
  rcases idPattern_decomp h with ⟨s1, h1, rfl⟩ | ⟨s1, s2, h1, h2, rfl⟩
  · rcases List.exists_cons_of_ne_nil (segOk_ne_nil h1) with ⟨a, as, rfl⟩
    intro hc
    exact allowedChar_ne_slash
      (segOk_mem h1 a (List.mem_cons_self a as)) (Option.some.inj hc)
  · rcases List.exists_cons_of_ne_nil (segOk_ne_nil h1) with ⟨a, as, rfl⟩
    intro hc
    rw [List.cons_append] at hc
    exact allowedChar_ne_slash
      (segOk_mem h1 a (List.mem_cons_self a as)) (Option.some.inj hc)

theorem mem_of_getLast?Seg :
    ∀ {l : List Char} {x : Char}, l.getLast? = some x → x ∈ l := by
  intro l
  induction l with
  | nil => intro x hx; simp at hx
  | cons a as ih =>
    intro x hx
    cases as with
    | nil =>
      simp [List.getLast?] at hx
      simp [hx]
    | cons b bs =>
      rw [List.getLast?_cons_cons] at hx
      exact List.mem_cons_of_mem a (ih hx)

theorem idPattern_last {s : List Char} (h : idPattern s = true) :
    s.getLast? ≠ some '/' := by
  rcases idPattern_decomp h with ⟨s1, h1, rfl⟩ | ⟨s1, s2, h1, h2, rfl⟩
  · intro hc
    exact allowedChar_ne_slash
      (segOk_mem h1 _ (mem_of_getLast?Seg hc)) rfl
  · intro hc
    rw [List.getLast?_append_cons] at hc
    rcases List.exists_cons_of_ne_nil (segOk_ne_nil h2) with ⟨b, bs, rfl⟩
    rw [List.getLast?_cons_cons] at hc
    exact allowedChar_ne_slash
      (segOk_mem h2 _ (mem_of_getLast?Seg hc)) rfl

theorem includesSeg_head_mem {x : Char} {xs s : List Char}
    (h : includesSeg (x :: xs) s = true) : x ∈ s := by
  induction s with
  | nil => exact absurd h (by simp [includesSeg])
  | cons c cs ih =>
    simp only [includesSeg, Bool.or_eq_true] at h
    rcases h with h | h
    · simp only [startsWithSeg, Bool.and_eq_true_iff, beq_iff_eq] at h
      rw [h.1]
      exact List.mem_cons_self c cs
    · exact List.mem_cons_of_mem c (ih h)

theorem idPattern_no_dotdot {s : List Char} (h : idPattern s = true) :
    includesSeg ['.', '.'] s = false := by
  by_contra hne
  have hinc : includesSeg ['.', '.'] s = true := by
    revert hne; cases includesSeg ['.', '.'] s <;> simp
  rcases idPattern_mem h '.' (includesSeg_head_mem hinc) with hc | hc
  · exact absurd hc (by decide)
  · exact absurd hc (by decide)

/-! # Claim theorems -/

/-- C1.  The claim states that every Dispatcher operation invokes the
external orchestration command via an argument-vector call with no shell
string interpolation.  The code contradicts it: `executeDockerCompose`
interpolates the compose-file path, the project name and the subcommand
into one template string and hands it to `exec`, which re-parses it with
a shell.  Evaluating the embedding at a concrete descriptor shows every
operation (start, stop, status, logs) issues a shell-string invocation. -/
theorem C1_dispatcher_operations_use_shell_string :
    startAppInvocation "/app/apps" "nginx-demo" true =
      .ok (.shell "docker-compose -f /app/apps/nginx-demo/docker-compose.yml -p hamnen_nginx-demo up -d") ∧
    stopAppInvocation "/app/apps" "nginx-demo" true =
      .ok (.shell "docker-compose -f /app/apps/nginx-demo/docker-compose.yml -p hamnen_nginx-demo down") ∧
    getAppStatusInvocation "/app/apps" "nginx-demo" true =
      .ok (.shell "docker-compose -f /app/apps/nginx-demo/docker-compose.yml -p hamnen_nginx-demo ps --format json") ∧
    getAppLogsInvocation "/app/apps" "nginx-demo" 100 true =
      .ok (.shell "docker-compose -f /app/apps/nginx-demo/docker-compose.yml -p hamnen_nginx-demo logs --tail=100") ∧
    (Invocation.shell "docker-compose -f /app/apps/nginx-demo/docker-compose.yml -p hamnen_nginx-demo up -d").isArgv = false :=
  ⟨rfl, rfl, rfl, rfl, rfl⟩

/-- C3 counterexample.  The claim states the Dispatcher's status
operation returns `state = unknown` when the external CLI call fails.
In the code (`getAppStatus`, catch path) a failed call yields
`status: 'stopped'` with the error message attached — not `unknown`. -/
theorem C3_failure_status_is_stopped_not_unknown :
    (getAppStatus (.error "Docker command failed: exit status 1")).status
        = "stopped" ∧
    (getAppStatus (.error "Docker command failed: exit status 1")).status
        ≠ "unknown" :=
  ⟨rfl, by decide⟩

/-- C3 amended.  On external-call failure the status operation does not
raise: it returns `status = stopped` with empty containers and the error
message recorded; and `listApps` still returns one entry for every
application, each computed independently from its own CLI outcome, so
one application's failure never drops the others from the listing. -/
theorem C3_status_degrades_and_listing_survives :
    (∀ e : String,
      getAppStatus (.error e) =
        { status := "stopped", containers := [], error := some e }) ∧
    (∀ (apps : List Descriptor)
        (execOf : List Char → Except String (List PsLine)),
      (listApps apps execOf).length = apps.length ∧
      ∀ a ∈ apps,
        (a, (getAppStatus (execOf a.id)).status) ∈ listApps apps execOf) := by
  refine ⟨fun e => rfl, fun apps execOf => ⟨by simp [listApps], ?_⟩⟩
  intro a ha
  exact List.mem_map_of_mem _ ha

/-- Witness for C3: with the demo catalog and an always-failing external
call, the listing still contains the demo app, reported as stopped. -/
theorem C3_status_degrades_witness :
    (demoDescriptor, "stopped") ∈
      listApps [demoDescriptor] fun _ => .error "boom" :=
  (C3_status_degrades_and_listing_survives.2 [demoDescriptor]
    fun _ => .error "boom").2 demoDescriptor (List.mem_singleton.mpr rfl)

/-- C4.  State-derivation invariants of every status value the
Dispatcher's status operation produces: `running` implies a non-empty
container list with every container running; `partial` implies a
non-empty list not all running; `stopped` implies an empty list. -/
theorem C4_status_state_invariants :
    ∀ r : Except String (List PsLine),
      ((getAppStatus r).status = "running" →
        (getAppStatus r).containers ≠ [] ∧
        ∀ c ∈ (getAppStatus r).containers, c.state = "running") ∧
      ((getAppStatus r).status = "partial" →
        (getAppStatus r).containers ≠ [] ∧
        ¬ ∀ c ∈ (getAppStatus r).containers, c.state = "running") ∧
      ((getAppStatus r).status = "stopped" →
        (getAppStatus r).containers = []) := by
  intro r
  cases r with
  | error e =>
    have hs : (getAppStatus (Except.error e)).status = "stopped" := rfl
    refine ⟨fun h => ?_, fun h => ?_, fun _ => rfl⟩
    · rw [hs] at h; exact absurd h (by decide)
    · rw [hs] at h; exact absurd h (by decide)
  | ok lines =>
    rw [show getAppStatus (Except.ok lines) =
      (if (lines.filterMap fun l =>
            match l with
            | PsLine.record c => some c
            | _ => none).isEmpty
       then { status := "stopped", containers := [] }
       else
         { status :=
             if (lines.filterMap fun l =>
                  match l with
                  | PsLine.record c => some c
                  | _ => none).all (fun c => c.State == "running")
             then "running" else "partial"
           containers :=
             (lines.filterMap fun l =>
               match l with
               | PsLine.record c => some c
               | _ => none).map fun c => ⟨c.Name, c.State, c.Status⟩ } :
        AppStatus) from rfl]
    set cs := lines.filterMap fun l =>
      match l with
      | PsLine.record c => some c
      | _ => none with hcsdef
    by_cases hemp : cs.isEmpty
    · rw [if_pos hemp]
      exact ⟨fun h => absurd h (by decide), fun h => absurd h (by decide),
        fun _ => rfl⟩
    · rw [if_neg hemp]
      have hne : cs ≠ [] := by
        intro hc; apply hemp; rw [hc]; rfl
      by_cases hall : cs.all (fun c => c.State == "running") = true
      · rw [if_pos hall]
        refine ⟨fun _ => ⟨by simpa using hne, ?_⟩,
          fun h => absurd h (show ¬("running" : String) = "partial" by decide),
          fun h => absurd h (show ¬("running" : String) = "stopped" by decide)⟩
        intro c hc
        rcases List.mem_map.1 hc with ⟨c0, hc0, rfl⟩
        exact beq_iff_eq.mp (List.all_eq_true.1 hall c0 hc0)
      · rw [if_neg hall]
        refine ⟨fun h => absurd h (show ¬("partial" : String) = "running" by decide),
          fun _ => ⟨by simpa using hne, ?_⟩,
          fun h => absurd h (show ¬("partial" : String) = "stopped" by decide)⟩
        intro hforall
        apply hall
        refine List.all_eq_true.2 fun c0 hc0 => ?_
        exact beq_iff_eq.mpr
          (hforall ⟨c0.Name, c0.State, c0.Status⟩ (List.mem_map_of_mem _ hc0))

/-- Witness for C4: a single running container yields a non-empty
container list. -/
theorem C4_status_state_invariants_witness :
    (getAppStatus (.ok [PsLine.record ⟨"nginx", "running", "Up 5 seconds"⟩])).containers ≠ [] :=
  ((C4_status_state_invariants
    (.ok [PsLine.record ⟨"nginx", "running", "Up 5 seconds"⟩])).1 rfl).1

/-- C8.  An app id is accepted by `validateAppId` if and only if it
matches the pattern `[a-zA-Z0-9_-]+(/[a-zA-Z0-9_-]+)?` and has length at
most 100: the explicit `..`/leading-slash/trailing-slash/non-empty
guards of the code are subsumed by the pattern.  In particular
`../etc/passwd`, `/absolute/path`, `a/b/c` and a 101-character id are
rejected, while `nginx-demo` and `web/nginx-demo` are accepted. -/
theorem C8_validateAppId_iff_pattern_and_length :
    (∀ s : List Char,
      validateAppId s = (idPattern s && decide (s.length ≤ 100))) ∧
    validateAppId "nginx-demo".data = true ∧
    validateAppId "web/nginx-demo".data = true ∧
    validateAppId "../etc/passwd".data = false ∧
    validateAppId "/absolute/path".data = false ∧
    validateAppId "a/b/c".data = false ∧
    validateAppId (List.replicate 101 'a') = false := by
  refine ⟨?_, by decide, by decide, by decide, by decide, by decide,
    by decide⟩
  intro s
  by_cases hp : idPattern s = true
  · have h1 := idPattern_isEmpty hp
    have h2 := idPattern_no_dotdot hp
    have h3 : (s.head? == some '/') = false :=
      beq_eq_false_iff_ne.mpr (idPattern_head hp)
    have h4 : (s.getLast? == some '/') = false :=
      beq_eq_false_iff_ne.mpr (idPattern_last hp)
    simp [validateAppId, h1, h2, h3, h4, hp]
  · have hp' : idPattern s = false := by
      revert hp; cases idPattern s <;> simp
    simp [validateAppId, hp']

/-- Witness for C8: the characterization applied at a concrete id. -/
theorem C8_validateAppId_witness :
    validateAppId "web/nginx-demo".data =
      (idPattern "web/nginx-demo".data &&
        decide ("web/nginx-demo".data.length ≤ 100)) :=
  C8_validateAppId_iff_pattern_and_length.1 "web/nginx-demo".data

/-- C9 counterexample.  The claim states the project namespaces derived
from distinct valid ids are distinct, in particular for `web/app` and
the literal bare id `web-app`.  The code joins with `-`, which is itself
a permitted id character, so both ids derive `hamnen_web-app`. -/
theorem C9_project_namespace_collision :
    projectName "web/app".data = projectName "web-app".data ∧
    "web/app".data ≠ "web-app".data := by
  exact ⟨rfl, by decide⟩

/-- C9 amended.  The project namespace is `hamnen_` plus the id with
every `/` replaced by `-`; because the join character `-` is also a
permitted id character, the derivation is not injective on all valid ids
(`web/app` collides with `web-app`), but it is injective on ids that
contain no `-`. -/
theorem C9_project_namespace_injective_on_dash_free :
    ∀ a b : List Char, (∀ c ∈ a, c ≠ '-') → (∀ c ∈ b, c ≠ '-') →
      projectName a = projectName b → a = b := by
  intro a b ha hb h
  have h2 : a.map slashToDash = b.map slashToDash :=
    List.append_cancel_left h
  clear h
  induction a generalizing b with
  | nil =>
    cases b with
    | nil => rfl
    | cons y ys => simp at h2
  | cons x xs ih =>
    cases b with
    | nil => simp at h2
    | cons y ys =>
      simp only [List.map_cons, List.cons.injEq] at h2
      have hx : x ≠ '-' := ha x (List.mem_cons_self x xs)
      have hy : y ≠ '-' := hb y (List.mem_cons_self y ys)
      have hxy : x = y := by
        have h1 := h2.1
        unfold slashToDash at h1
        split_ifs at h1 with hx1 hy1 hy2
        · rw [hx1, hy1]
        · exact absurd h1.symm hy
        · exact absurd h1 hx
        · exact h1
      subst hxy
      rw [ih ys (fun c hc => ha c (List.mem_cons_of_mem x hc))
        (fun c hc => hb c (List.mem_cons_of_mem x hc)) h2.2]

/-- Witness for C9: the injectivity applied at a concrete dash-free id. -/
theorem C9_project_namespace_witness :
    ("web/app".data : List Char) = "web/app".data :=
  C9_project_namespace_injective_on_dash_free "web/app".data "web/app".data
    (by decide) (by decide) rfl

/-- C10.  The log line-count validation accepts exactly the strings whose
`parseInt(value, 10)` result lies in `[1, 10000]`: non-integer strings
such as `7.9` or `50abc` pass with the truncated integer prefix, and a
value is rejected only when the parse yields `NaN` or a number outside
the range. -/
theorem C10_lines_validation_follows_parseInt :
    (∀ (s : List Char) (n : Int),
      validateLinesParam s = NumValidation.valid n ↔
        (jsParseInt s = some n ∧ 1 ≤ n ∧ n ≤ 10000)) ∧
    validateLinesParam "7.9".data = .valid 7 ∧
    validateLinesParam "50abc".data = .valid 50 ∧
    validateLinesParam "abc".data = .invalid "lines must be a number" ∧
    validateLinesParam "0".data =
      .invalid "lines must be between 1 and 10000" ∧
    validateLinesParam "10001".data =
      .invalid "lines must be between 1 and 10000" := by
  refine ⟨?_, by decide, by decide, by decide, by decide, by decide⟩
  intro s n
  unfold validateLinesParam validateNumber
  cases h : jsParseInt s with
  | none => simp
  | some m =>
    simp only []
    split_ifs with hcond
    · constructor
      · intro hv; cases hv
      · rintro ⟨hmn, h1, h2⟩
        obtain rfl : m = n := Option.some.inj hmn
        exfalso
        have : m < 1 ∨ m > 10000 := by simpa using hcond
        omega
    · have hc : ¬(m < 1 ∨ m > 10000) := by simpa using hcond
      constructor
      · intro hv
        injection hv with hv'
        subst hv'
        exact ⟨rfl, by omega, by omega⟩
      · rintro ⟨hmn, -, -⟩
        obtain rfl : m = n := Option.some.inj hmn
        rfl

/-- Witness for C10: the characterization applied at a concrete value. -/
theorem C10_lines_validation_witness :
    validateLinesParam "100".data = NumValidation.valid 100 :=
  (C10_lines_validation_follows_parseInt.1 "100".data 100).mpr
    ⟨by decide, by decide, by decide⟩

/-- C2 counterexample.  The claim states every execution of
`startApplication` on a known id invalidates that app's status cache
entry strictly before the Dispatcher's start is invoked.  In the code the
`startApp` controller performs no cache operation at all: on a known id
its collaborator trace dispatches start without any preceding (or
following) cache invalidation. -/
theorem C2_start_dispatches_without_any_cache_invalidation :
    ((ctrlStartApp demoCollab "web/nginx-demo".data).2).contains
        (CtrlEv.dockerStart "web/nginx-demo".data) = true ∧
    ((ctrlStartApp demoCollab "web/nginx-demo".data).2).all
        (fun e => !e.isCacheOp) = true := by
  decide

/-- C2 amended.  On a known id whose start dispatch succeeds, the
`startApp` controller's collaborator trace is exactly lookup, dispatch
start, sleep 2000 ms, re-query status — it never touches the status
cache; separately, the cache module's `invalidateAppStatus`, when
invoked, does delete the entry, so a subsequent read misses. -/
theorem C2_start_trace_has_no_cache_ops :
    (∀ (c : StartCollab) (appId : List Char) (d : Descriptor),
      c.findAppById appId = .ok (some d) → c.startApp appId = .ok () →
      (ctrlStartApp c appId).2 =
        [.findById appId, .dockerStart appId, .sleepMs 2000,
         .dockerStatus appId] ∧
      ∀ e ∈ (ctrlStartApp c appId).2, e.isCacheOp = false) ∧
    (∀ (st : StatusCache) (appId : List Char),
      cacheGetAppStatus (invalidateAppStatus st appId) appId = none) := by
  constructor
  · intro c appId d h1 h2
    unfold ctrlStartApp
    rw [h1, h2]
    refine ⟨rfl, ?_⟩
    intro e he
    simp only [List.mem_cons, List.not_mem_nil, or_false] at he
    rcases he with rfl | rfl | rfl | rfl <;> rfl
  · intro st appId
    unfold cacheGetAppStatus invalidateAppStatus
    induction st with
    | nil => rfl
    | cons e st ih =>
      by_cases hk : (e.1 == statusKey appId) = true
      · have hp : (e.1 != statusKey appId) = false := by
          simp [bne, hk]
        simp only [List.filter_cons, hp, Bool.false_eq_true, if_false]
        exact ih
      · have hk' : (e.1 == statusKey appId) = false := by
          revert hk; cases e.1 == statusKey appId <;> simp
        have hp : (e.1 != statusKey appId) = true := by
          simp [bne, hk']
        simp only [List.filter_cons, hp, if_true]
        rw [List.find?_cons_of_neg _ (by simp [hk'])]
        exact ih

/-- Witness for C2: the trace characterization applied to the demo test
double. -/
theorem C2_start_trace_witness :
    (ctrlStartApp demoCollab "web/nginx-demo".data).2 =
      [.findById "web/nginx-demo".data, .dockerStart "web/nginx-demo".data,
       .sleepMs 2000, .dockerStatus "web/nginx-demo".data] :=
  (C2_start_trace_has_no_cache_ops.1 demoCollab "web/nginx-demo".data
    demoDescriptor rfl rfl).1

/-! ## Scan characterization lemmas -/

theorem mem_appOfLoad {r : Except String (Option Descriptor)}
    {d : Descriptor} (h : d ∈ appOfLoad r) : r = .ok (some d) := by
  rcases r with e | op
  · exact absurd h (List.not_mem_nil d)
  · cases op with
    | none => exact absurd h (List.not_mem_nil d)
    | some a => rw [List.mem_singleton.mp h]

theorem foldl_pair_of_step {α β γ : Type}
    (step : List β × List γ → α → List β × List γ)
    (g : α → List β) (h : α → List γ)
    (hstep : ∀ acc x, step acc x = (acc.1 ++ g x, acc.2 ++ h x)) :
    ∀ (l : List α) (acc : List β × List γ),
      l.foldl step acc = (acc.1 ++ l.flatMap g, acc.2 ++ l.flatMap h) := by
  intro l
  induction l with
  | nil => intro acc; simp
  | cons x xs ih =>
    intro acc
    rw [List.foldl_cons, hstep, ih]
    simp [List.flatMap_cons, List.append_assoc]

theorem loadCategoryApps_eq (fs : FS) (rd : RootDir)
    (h : rd.readable = true) :
    loadCategoryApps fs rd =
      (.ok (rd.subdirs.flatMap fun sd =>
          appOfLoad (loadApp fs sd.sdname (some rd.rdname)).1),
       Ev.readDirCat rd.rdname ::
         rd.subdirs.flatMap fun sd =>
           (loadApp fs sd.sdname (some rd.rdname)).2) := by
  unfold loadCategoryApps
  rw [h]
  simp only [Bool.not_true, Bool.false_eq_true, if_false]
  rw [foldl_pair_of_step _
    (fun sd => appOfLoad (loadApp fs sd.sdname (some rd.rdname)).1)
    (fun sd => (loadApp fs sd.sdname (some rd.rdname)).2)
    ?hstep rd.subdirs ([], [Ev.readDirCat rd.rdname])]
  · simp
  case hstep =>
    intro acc sd
    rcases hr : (loadApp fs sd.sdname (some rd.rdname)).1 with e | op
    · simp [hr, appOfLoad]
    · cases op with
      | none => simp [hr, appOfLoad]
      | some a => simp [hr, appOfLoad]

theorem rootStep_eq (fs : FS) (rd : RootDir)
    (acc : List Descriptor × List Ev) :
    (if rd.rdname == "README.md".data then acc
     else
       let accEv := Ev.accessFile none rd.rdname "description.json"
       if rd.files.hasDesc then
         let r := loadApp fs rd.rdname none
         match r.1 with
         | .ok (some a) => (acc.1 ++ [a], acc.2 ++ accEv :: r.2)
         | _ => (acc.1, acc.2 ++ accEv :: r.2)
       else
         let r := loadCategoryApps fs rd
         match r.1 with
         | .ok l => (acc.1 ++ l, acc.2 ++ accEv :: r.2)
         | .error _ => (acc.1, acc.2 ++ accEv :: r.2)) =
      (acc.1 ++ rootApps fs rd, acc.2 ++ rootEvs fs rd) := by
  by_cases hn : (rd.rdname == "README.md".data) = true
  · simp [hn, rootApps, rootEvs]
  · have hn' : (rd.rdname == "README.md".data) = false := by
      revert hn; cases rd.rdname == "README.md".data <;> simp
    simp only [hn', Bool.false_eq_true, if_false, rootApps, rootEvs]
    by_cases hd : rd.files.hasDesc
    · simp only [hd, if_true]
      rcases hr : (loadApp fs rd.rdname none).1 with e | op
      · simp [appOfLoad]
      · cases op with
        | none => simp [appOfLoad]
        | some a => simp [appOfLoad]
    · have hd' : rd.files.hasDesc = false := by
        revert hd; cases rd.files.hasDesc <;> simp
      simp only [hd', Bool.false_eq_true, if_false]
      by_cases hrd : rd.readable = true
      · rw [loadCategoryApps_eq fs rd hrd]
        simp [hrd]
      · have hrd' : rd.readable = false := by
          revert hrd; cases rd.readable <;> simp
        unfold loadCategoryApps
        rw [hrd']
        simp

theorem loadApps_eq (fs : FS) (h : fs.rootReadable = true) :
    loadApps fs =
      (.ok (fs.roots.flatMap (rootApps fs)),
       Ev.readDirRoot :: fs.roots.flatMap (rootEvs fs)) := by
  unfold loadApps
  rw [h]
  simp only [Bool.not_true, Bool.false_eq_true, if_false]
  rw [foldl_pair_of_step _ (rootApps fs) (rootEvs fs)
    (fun acc rd => rootStep_eq fs rd acc) fs.roots ([], [Ev.readDirRoot])]
  simp

theorem readDirRoot_mem_loadApps (fs : FS) :
    Ev.readDirRoot ∈ (loadApps fs).2 := by
  by_cases h : fs.rootReadable = true
  · rw [loadApps_eq fs h]
    exact List.mem_cons_self _ _
  · have h' : fs.rootReadable = false := by
      revert h; cases fs.rootReadable <;> simp
    unfold loadApps
    rw [h']
    simp

theorem loadApp_evs (fs : FS) (n : List Char) (c : Option (List Char)) :
    ∀ e ∈ (loadApp fs n c).2,
      (∃ f, e = Ev.accessFile c n f) ∨ ∃ f, e = Ev.readFile c n f := by
  intro e he
  unfold loadApp at he
  rcases hres : resolveFiles fs c n with _ | files <;> rw [hres] at he
  · rw [List.mem_singleton.mp he]
    exact Or.inl ⟨_, rfl⟩
  · by_cases hd : files.hasDesc
    · simp only [hd, Bool.not_true, Bool.false_eq_true, if_false] at he
      by_cases hc : files.hasCompose
      · simp only [hc, Bool.not_true, Bool.false_eq_true, if_false] at he
        rcases hdd : files.desc with _ | dd <;> rw [hdd] at he
        · simp only [List.mem_cons, List.not_mem_nil, or_false] at he
          rcases he with rfl | rfl | rfl
          · exact Or.inl ⟨_, rfl⟩
          · exact Or.inl ⟨_, rfl⟩
          · exact Or.inr ⟨_, rfl⟩
        · rcases hcc : files.compose with _ | comp <;> rw [hcc] at he <;>
            simp only [List.append_eq, List.cons_append, List.nil_append,
              List.mem_cons, List.not_mem_nil, or_false] at he <;>
          · rcases he with rfl | rfl | rfl | rfl
            · exact Or.inl ⟨_, rfl⟩
            · exact Or.inl ⟨_, rfl⟩
            · exact Or.inr ⟨_, rfl⟩
            · exact Or.inr ⟨_, rfl⟩
      · have hc' : files.hasCompose = false := by
          revert hc; cases files.hasCompose <;> simp
        simp only [hc', Bool.not_false, if_true] at he
        simp only [List.mem_cons, List.not_mem_nil, or_false] at he
        rcases he with rfl | rfl
        · exact Or.inl ⟨_, rfl⟩
        · exact Or.inl ⟨_, rfl⟩
    · have hd' : files.hasDesc = false := by
        revert hd; cases files.hasDesc <;> simp
      simp only [hd', Bool.not_false, if_true] at he
      rw [List.mem_singleton.mp he]
      exact Or.inl ⟨_, rfl⟩

/-- Where a resolved `AppFiles` value lives in the tree. -/
def FilesIn (fs : FS) (files : AppFiles) : Prop :=
  (∃ rd ∈ fs.roots, files = rd.files) ∨
  ∃ rd ∈ fs.roots, ∃ sd ∈ rd.subdirs, files = sd.files

theorem resolveFiles_filesIn {fs : FS} {c : Option (List Char)}
    {n : List Char} {files : AppFiles}
    (h : resolveFiles fs c n = some files) : FilesIn fs files := by
  cases c with
  | none =>
    unfold resolveFiles at h
    rcases Option.map_eq_some'.mp h with ⟨rd, hfind, hfiles⟩
    exact Or.inl ⟨rd, List.mem_of_find?_eq_some hfind, hfiles.symm⟩
  | some cat =>
    unfold resolveFiles at h
    rcases Option.bind_eq_some.mp h with ⟨rd, hfind, hmap⟩
    rcases Option.map_eq_some'.mp hmap with ⟨sd, hfind2, hfiles⟩
    exact Or.inr ⟨rd, List.mem_of_find?_eq_some hfind,
      sd, List.mem_of_find?_eq_some hfind2, hfiles.symm⟩

theorem noIdOverride_filesIn {fs : FS} {files : AppFiles} {dd : DescDoc}
    (hno : noIdOverride fs = true) (hin : FilesIn fs files)
    (hdd : files.desc = some dd) : dd.idField = none := by
  unfold noIdOverride at hno
  have hall := List.all_eq_true.mp hno
  have hfiles : filesNoId files = true := by
    rcases hin with ⟨rd, hrd, rfl⟩ | ⟨rd, hrd, sd, hsd, rfl⟩
    · exact (Bool.and_eq_true_iff.mp (hall rd hrd)).1
    · exact List.all_eq_true.mp
        (Bool.and_eq_true_iff.mp (hall rd hrd)).2 sd hsd
  unfold filesNoId at hfiles
  rw [hdd] at hfiles
  exact beq_iff_eq.mp hfiles

theorem slashFree_root {fs : FS} {rd : RootDir}
    (hsf : slashFreeNames fs = true) (hrd : rd ∈ fs.roots) :
    ∀ c ∈ rd.rdname, c ≠ '/' := by
  intro c hc
  have h := (Bool.and_eq_true_iff.mp
    (List.all_eq_true.mp hsf rd hrd)).1
  have := List.all_eq_true.mp h c hc
  simpa using this

theorem slashFree_sub {fs : FS} {rd : RootDir} {sd : SubDir}
    (hsf : slashFreeNames fs = true) (hrd : rd ∈ fs.roots)
    (hsd : sd ∈ rd.subdirs) : ∀ c ∈ sd.sdname, c ≠ '/' := by
  intro c hc
  have h := (Bool.and_eq_true_iff.mp
    (List.all_eq_true.mp hsf rd hrd)).2
  have := List.all_eq_true.mp (List.all_eq_true.mp h sd hsd) c hc
  simpa using this

theorem loadApp_ok_some_root {fs : FS} {n : List Char} {d : Descriptor}
    (h : (loadApp fs n none).1 = .ok (some d)) :
    ∃ files dd comp, resolveFiles fs none n = some files ∧
      files.desc = some dd ∧ files.compose = some comp ∧
      d = { id := dd.idField.getD n
            name := dd.nameField.getD n
            category := dd.categoryField.getD "uncategorized".data
            port := dd.portField
            path := dd.pathField
            composeInfo := extractComposeInfo comp } := by
  unfold loadApp at h
  rcases hres : resolveFiles fs none n with _ | files <;> rw [hres] at h
  · simp at h
  · by_cases hd : files.hasDesc
    · simp only [hd, Bool.not_true, Bool.false_eq_true, if_false] at h
      by_cases hc : files.hasCompose
      · simp only [hc, Bool.not_true, Bool.false_eq_true, if_false] at h
        rcases hdd : files.desc with _ | dd <;> rw [hdd] at h
        · simp at h
        · rcases hcc : files.compose with _ | comp <;> rw [hcc] at h
          · simp at h
          · simp only [Except.ok.injEq, Option.some.injEq] at h
            exact ⟨files, dd, comp, rfl, hdd, hcc, h.symm⟩
      · have hc' : files.hasCompose = false := by
          revert hc; cases files.hasCompose <;> simp
        simp only [hc', Bool.not_false, if_true] at h
        simp at h
    · have hd' : files.hasDesc = false := by
        revert hd; cases files.hasDesc <;> simp
      simp only [hd', Bool.not_false, if_true] at h
      simp at h

theorem loadApp_ok_some_cat {fs : FS} {n cc : List Char} {d : Descriptor}
    (h : (loadApp fs n (some cc)).1 = .ok (some d)) :
    ∃ files dd comp, resolveFiles fs (some cc) n = some files ∧
      files.desc = some dd ∧ files.compose = some comp ∧
      d = { id := dd.idField.getD (cc ++ '/' :: n)
            name := dd.nameField.getD n
            category := dd.categoryField.getD cc
            port := dd.portField
            path := dd.pathField
            composeInfo := extractComposeInfo comp } := by
  unfold loadApp at h
  rcases hres : resolveFiles fs (some cc) n with _ | files <;> rw [hres] at h
  · simp at h
  · by_cases hd : files.hasDesc
    · simp only [hd, Bool.not_true, Bool.false_eq_true, if_false] at h
      by_cases hc : files.hasCompose
      · simp only [hc, Bool.not_true, Bool.false_eq_true, if_false] at h
        rcases hdd : files.desc with _ | dd <;> rw [hdd] at h
        · simp at h
        · rcases hcc : files.compose with _ | comp <;> rw [hcc] at h
          · simp at h
          · simp only [Except.ok.injEq, Option.some.injEq] at h
            exact ⟨files, dd, comp, rfl, hdd, hcc, h.symm⟩
      · have hc' : files.hasCompose = false := by
          revert hc; cases files.hasCompose <;> simp
        simp only [hc', Bool.not_false, if_true] at h
        simp at h
    · have hd' : files.hasDesc = false := by
        revert hd; cases files.hasDesc <;> simp
      simp only [hd', Bool.not_false, if_true] at h
      simp at h

theorem mem_catalog {fs : FS} {l : List Descriptor} {d : Descriptor}
    (h : fs.rootReadable = true) (hl : (loadApps fs).1 = .ok l)
    (hd : d ∈ l) :
    ∃ rd ∈ fs.roots,
      ((rd.files.hasDesc = true ∧
        (loadApp fs rd.rdname none).1 = .ok (some d)) ∨
       (rd.files.hasDesc = false ∧ rd.readable = true ∧
        ∃ sd ∈ rd.subdirs,
          (loadApp fs sd.sdname (some rd.rdname)).1 = .ok (some d))) := by
  rw [loadApps_eq fs h] at hl
  simp only [Except.ok.injEq] at hl
  subst hl
  rcases List.mem_flatMap.mp hd with ⟨rd, hrd, hmem⟩
  refine ⟨rd, hrd, ?_⟩
  unfold rootApps at hmem
  by_cases hn : (rd.rdname == "README.md".data) = true
  · rw [if_pos hn] at hmem
    exact absurd hmem (List.not_mem_nil d)
  · rw [if_neg hn] at hmem
    by_cases hdc : rd.files.hasDesc
    · rw [if_pos hdc] at hmem
      exact Or.inl ⟨hdc, mem_appOfLoad hmem⟩
    · have hdc' : rd.files.hasDesc = false := by
        revert hdc; cases rd.files.hasDesc <;> simp
      rw [if_neg hdc] at hmem
      by_cases hrr : rd.readable = true
      · rw [if_pos hrr] at hmem
        rcases List.mem_flatMap.mp hmem with ⟨sd, hsd, hmem2⟩
        exact Or.inr ⟨hdc', hrr, sd, hsd, mem_appOfLoad hmem2⟩
      · rw [if_neg hrr] at hmem
        exact absurd hmem (List.not_mem_nil d)

theorem takeWhile_ne_slash_eq_self (l : List Char)
    (h : ∀ x ∈ l, x ≠ '/') :
    (l.takeWhile fun c => c != '/') = l := by
  induction l with
  | nil => rfl
  | cons a as ih =>
    have ha : (a != '/') = true := by
      simpa using h a (List.mem_cons_self a as)
    rw [List.takeWhile_cons, if_pos ha,
      ih fun x hx => h x (List.mem_cons_of_mem a hx)]

theorem contains_slash_false (l : List Char) (h : ∀ x ∈ l, x ≠ '/') :
    l.contains '/' = false := by
  by_contra hc
  have : l.contains '/' = true := by
    revert hc; cases l.contains '/' <;> simp
  exact h '/' (List.elem_iff.mp this) rfl

theorem contains_slash_true {l : List Char} (h : '/' ∈ l) :
    l.contains '/' = true :=
  List.elem_iff.mpr h

/-- C6.  `findAppById` on an id containing the category separator is
exactly the single-path probe `loadApp(appName, category)` on the first
two split segments — every filesystem operation in its trace touches only
files of that one directory, and no directory listing is read; on an id
without a separator it performs the full `loadApps()` scan (its trace is
the scan's trace, which reads the root directory listing) followed by a
linear search of the resulting catalog. -/
theorem C6_findById_exact_probe_or_full_scan :
    ∀ (fs : FS) (appId : List Char),
      (appId.contains '/' = true →
        findAppById fs appId =
          loadApp fs (idAppName appId) (some (idCategory appId)) ∧
        ∀ e ∈ (findAppById fs appId).2,
          (∃ f, e = Ev.accessFile (some (idCategory appId))
              (idAppName appId) f) ∨
          ∃ f, e = Ev.readFile (some (idCategory appId))
              (idAppName appId) f) ∧
      (appId.contains '/' = false →
        (findAppById fs appId).1 =
          (loadApps fs).1.map (fun apps =>
            apps.find? fun a => a.id == appId) ∧
        (findAppById fs appId).2 = (loadApps fs).2 ∧
        Ev.readDirRoot ∈ (findAppById fs appId).2) := by
  intro fs appId
  constructor
  · intro h
    have heq : findAppById fs appId =
        loadApp fs (idAppName appId) (some (idCategory appId)) := by
      unfold findAppById
      rw [if_pos h]
    exact ⟨heq, by rw [heq]; exact loadApp_evs fs _ _⟩
  · intro h
    have hneg : ¬ appId.contains '/' = true := by rw [h]; simp
    unfold findAppById
    rw [if_neg hneg]
    exact ⟨rfl, rfl, readDirRoot_mem_loadApps fs⟩

/-- Witness for C6: the probe characterization applied at a concrete
category-qualified id in a concrete tree. -/
theorem C6_findById_probe_witness :
    findAppById fsBrokenName "web/nginx-demo".data =
      loadApp fsBrokenName (idAppName "web/nginx-demo".data)
        (some (idCategory "web/nginx-demo".data)) :=
  ((C6_findById_exact_probe_or_full_scan fsBrokenName
    "web/nginx-demo".data).1 (by decide)).1

/-- C7 counterexample.  The claim states an application directory whose
manifest is missing a required field such as `name` is skipped and
excluded from the catalog.  In the code a manifest that parses but
stores no `name` key is NOT skipped: the descriptor is built with the
directory name as fallback (`description.name || appName`), so
`web/broken-app` appears in the scan result. -/
theorem C7_missing_name_is_not_skipped :
    (loadApps fsBrokenName).1 = .ok [nginxDescriptor, brokenAppDescriptor] ∧
    brokenAppDescriptor.id = "web/broken-app".data ∧
    brokenAppDescriptor.name = "broken-app".data :=
  ⟨rfl, rfl, rfl⟩

/-- C7 amended.  `scanAll` never partially fails: whenever the root
directory is readable it returns a catalog (never an error), and it
fails exactly when the root is unreadable; an application directory
missing `description.json` or `docker-compose.yml` yields `null`
(skipped), and one whose manifest fails to parse throws an error that
the scan loop catches, as the `fsBrokenJson` scenario shows — but a
manifest merely missing the `name` field is still loaded, with the
directory name as its name. -/
theorem C7_scan_failure_containment :
    (∀ fs : FS, fs.rootReadable = true → ∃ l, (loadApps fs).1 = .ok l) ∧
    (∀ fs : FS, fs.rootReadable = false →
      ∃ e, (loadApps fs).1 = .error e) ∧
    (∀ (fs : FS) (n : List Char) (c : Option (List Char))
        (files : AppFiles), resolveFiles fs c n = some files →
      (files.hasDesc = false ∨ files.hasCompose = false →
        (loadApp fs n c).1 = .ok none) ∧
      (files.hasDesc = true → files.hasCompose = true →
        files.desc = none → ∃ e, (loadApp fs n c).1 = .error e)) ∧
    (loadApps fsBrokenJson).1 = .ok [nginxDescriptor] := by
  refine ⟨?_, ?_, ?_, rfl⟩
  · intro fs h
    exact ⟨_, by rw [loadApps_eq fs h]⟩
  · intro fs h
    refine ⟨"Failed to load applications: readdir: permission denied", ?_⟩
    unfold loadApps
    rw [h]
    simp
  · intro fs n c files hres
    constructor
    · intro hmiss
      unfold loadApp
      rw [hres]
      rcases hmiss with hm | hm
      · simp [hm]
      · by_cases hd : files.hasDesc <;> simp [hd, hm]
    · intro hd hc hdd
      refine ⟨"JSON.parse: unexpected token", ?_⟩
      unfold loadApp
      rw [hres]
      simp [hd, hc, hdd]

/-- Witness for C7: the never-partially-fails part applied at the
concrete broken-manifest tree. -/
theorem C7_scan_failure_witness :
    ∃ l, (loadApps fsBrokenName).1 = .ok l :=
  C7_scan_failure_containment.1 fsBrokenName rfl

/-- C5 counterexample.  The claim states the id of every descriptor
returned by `findAppById` after a scan equals the requested id and is
derived from the filesystem path, not from any manifest field.  Because
`loadApp` spreads the manifest document after setting `id`, a manifest
that stores an `id` key overrides the path-derived id: in
`fsIdOverride` the app at path `web/nginx` is catalogued and returned
with id `evil`, not `web/nginx`. -/
theorem C5_manifest_id_overrides_path_derived_id :
    (loadApps fsIdOverride).1 = .ok [evilDescriptor] ∧
    (findAppById fsIdOverride "web/nginx".data).1 =
      .ok (some evilDescriptor) ∧
    evilDescriptor.id ≠ "web/nginx".data ∧
    evilDescriptor.id = "evil".data :=
  ⟨rfl, rfl, by decide, rfl⟩

/-- C5 amended.  Provided no manifest in the tree stores an `id` key
(and directory names are slash-free, as real names are), every id in a
fresh `scanAll` catalog round-trips: `findAppById` on it returns a
descriptor carrying exactly that id. -/
theorem C5_findById_id_roundtrip_without_override
    (fs : FS) (hno : noIdOverride fs = true)
    (hsf : slashFreeNames fs = true) (l : List Descriptor)
    (hl : (loadApps fs).1 = .ok l) (d0 : Descriptor) (hd0 : d0 ∈ l) :
    ∃ d, (findAppById fs d0.id).1 = .ok (some d) ∧ d.id = d0.id := by
  have hroot : fs.rootReadable = true := by
    by_contra hr
    have hr' : fs.rootReadable = false := by
      revert hr; cases fs.rootReadable <;> simp
    unfold loadApps at hl
    rw [hr'] at hl
    simp at hl
  rcases mem_catalog hroot hl hd0 with ⟨rd, hrd, hcase⟩
  rcases hcase with ⟨hdc, hload⟩ | ⟨hdc, hrr, sd, hsd, hload⟩
  · rcases loadApp_ok_some_root hload with
      ⟨files, dd, comp, hres, hdd, hcc, rfl⟩
    have hid : dd.idField = none :=
      noIdOverride_filesIn hno (resolveFiles_filesIn hres) hdd
    have hidv : dd.idField.getD rd.rdname = rd.rdname := by
      rw [hid]; rfl
    have hcont : (dd.idField.getD rd.rdname).contains '/' = false := by
      rw [hidv]; exact contains_slash_false _ (slashFree_root hsf hrd)
    show ∃ d, (findAppById fs (dd.idField.getD rd.rdname)).1 =
      .ok (some d) ∧ d.id = dd.idField.getD rd.rdname
    unfold findAppById
    rw [if_neg (by rw [hcont]; simp)]
    have hfind : ∃ x, l.find?
        (fun a => a.id == dd.idField.getD rd.rdname) = some x := by
      refine Option.isSome_iff_exists.mp (List.find?_isSome.mpr ⟨_, hd0, ?_⟩)
      simp
    rcases hfind with ⟨x, hx⟩
    have hpred : (x.id == dd.idField.getD rd.rdname) = true :=
      @List.find?_some _ (fun a => a.id == dd.idField.getD rd.rdname) x l hx
    refine ⟨x, ?_, beq_iff_eq.mp hpred⟩
    show ((loadApps fs).1.map fun apps =>
      apps.find? fun a => a.id == dd.idField.getD rd.rdname) = .ok (some x)
    rw [hl]
    show Except.ok (l.find? fun a => a.id == dd.idField.getD rd.rdname) =
      .ok (some x)
    rw [hx]
  · rcases loadApp_ok_some_cat hload with
      ⟨files, dd, comp, hres, hdd, hcc, rfl⟩
    have hid : dd.idField = none :=
      noIdOverride_filesIn hno (resolveFiles_filesIn hres) hdd
    have hidv : dd.idField.getD (rd.rdname ++ '/' :: sd.sdname) =
        rd.rdname ++ '/' :: sd.sdname := by
      rw [hid]; rfl
    have hcont : (dd.idField.getD
        (rd.rdname ++ '/' :: sd.sdname)).contains '/' = true := by
      rw [hidv]
      exact contains_slash_true
        (List.mem_append.mpr (Or.inr (List.mem_cons_self _ _)))
    show ∃ d, (findAppById fs
        (dd.idField.getD (rd.rdname ++ '/' :: sd.sdname))).1 =
      .ok (some d) ∧ d.id = dd.idField.getD (rd.rdname ++ '/' :: sd.sdname)
    unfold findAppById
    rw [if_pos hcont, hidv]
    have hsplit : splitFirstSlash (rd.rdname ++ '/' :: sd.sdname) =
        (rd.rdname, some sd.sdname) :=
      splitFirstSlash_append _ _ (slashFree_root hsf hrd)
    have hcatv : idCategory (rd.rdname ++ '/' :: sd.sdname) = rd.rdname := by
      unfold idCategory; rw [hsplit]
    have hnamev : idAppName (rd.rdname ++ '/' :: sd.sdname) = sd.sdname := by
      unfold idAppName
      rw [hsplit]
      exact takeWhile_ne_slash_eq_self _ (slashFree_sub hsf hrd hsd)
    rw [hcatv, hnamev]
    exact ⟨_, hload, hidv⟩

/-- Witness for C5: the round-trip applied in a concrete override-free
tree at the id `web/nginx-demo`. -/
theorem C5_findById_id_roundtrip_witness :
    ∃ d, (findAppById fsBrokenName nginxDescriptor.id).1 =
      .ok (some d) ∧ d.id = nginxDescriptor.id :=
  C5_findById_id_roundtrip_without_override fsBrokenName (by decide)
    (by decide) [nginxDescriptor, brokenAppDescriptor] rfl
    nginxDescriptor (by decide)

end Hamnen
